import Mathlib

/-!
Verification of dpxdt's site_diff module (dpxdt/client/site_diff.py).

Strings are modelled as `List Char` (Python 2 `str` of the URLs and documents
involved). Python library routines the module calls (`urlparse.urlparse`,
`urlparse.urlunparse`, `os.path.dirname`, `re.sub`/`re.finditer` over the
module's fixed patterns, `HTMLParser.unescape`) are embedded below following
the Python 2.7 standard library; `urlparse.urlsplit` raising
`ValueError("Invalid IPv6 URL")` is modelled with `Except Unit`.
-/

abbrev Str := List Char

deriving instance DecidableEq for Except

/-- `true` when the string starts with the character. -/
def headIs (c : Char) : Str → Bool
  | x :: _ => x = c
  | [] => false

/-! ## Python string primitives -/

/-- Python `s.find(c)`: index of the first occurrence, `none` for -1. -/
def pyFind (c : Char) : Str → Option Nat
  | [] => none
  | x :: xs => if x = c then some 0 else (pyFind c xs).map (· + 1)

/-- Python `s.rfind(c)`: index of the last occurrence. -/
def pyRFind (c : Char) (s : Str) : Option Nat :=
  (pyFind c s.reverse).map (fun i => s.length - 1 - i)

/-- Python `s.find(c, start)`. -/
def pyFindFrom (c : Char) (s : Str) (start : Nat) : Option Nat :=
  (pyFind c (s.drop start)).map (· + start)

/-- Python `s.split(c, 1)` combined with the `if c in s` guard the callers
use: `(before first c, after first c)`, and `(s, [])` when `c` is absent. -/
def splitFirst (c : Char) : Str → Str × Str
  | [] => ([], [])
  | x :: xs =>
    if x = c then ([], xs)
    else ((x :: (splitFirst c xs).1), (splitFirst c xs).2)

/-- Python `s.split(c)` (split on every occurrence; adjacent separators give
empty pieces, `''.split(c) = ['']`). -/
def splitOnChar (c : Char) : Str → List Str
  | [] => [[]]
  | x :: xs =>
    match splitOnChar c xs with
    | [] => [[]]
    | h :: t => if x = c then [] :: h :: t else (x :: h) :: t

/-- Python `c.join(parts)`. -/
def joinChar (c : Char) : List Str → Str
  | [] => []
  | [x] => x
  | x :: y :: t => x ++ c :: joinChar c (y :: t)

/-- Python `s.lower()` (ASCII, as for Python 2 `str`). -/
def lowerStr (s : Str) : Str := s.map Char.toLower

/-- Python `s.startswith(p)`. -/
def pyStartswith (s p : Str) : Bool := p.isPrefixOf s

/-- Python `s.endswith(p)`. -/
def pyEndswith (s p : Str) : Bool := p.isSuffixOf s

/-- Python `needle in hay` (substring containment). -/
def strContains (hay needle : Str) : Bool :=
  match hay with
  | [] => needle.isEmpty
  | _ :: rest => needle.isPrefixOf hay || strContains rest needle

/-- The suffix produced by `(url.rsplit('.', 1) + [''])[:2]`: the text after
the last `'.'`, or `''` when there is none. -/
def rsplitSuffix (c : Char) (s : Str) : Str :=
  if c ∈ s then (s.reverse.takeWhile (· ≠ c)).reverse else []

/-! Python `set` operations, modelled on duplicate-free lists with a
deterministic insertion order. -/

def setInsert (s : List Str) (x : Str) : List Str :=
  if x ∈ s then s else s ++ [x]

def setUnion (s t : List Str) : List Str := t.foldl setInsert s

def setDiff (s t : List Str) : List Str := s.filter fun v => decide (v ∉ t)

/-! ## urlparse (Python 2.7) -/

structure SplitResult where
  scheme : Str
  netloc : Str
  path : Str
  query : Str
  fragment : Str
deriving DecidableEq, Repr

structure ParseResult where
  scheme : Str
  netloc : Str
  path : Str
  params : Str
  query : Str
  fragment : Str
deriving DecidableEq, Repr

/-- `scheme_chars` of urlparse.py. -/
def isSchemeChar (c : Char) : Bool :=
  (c ≥ 'a' ∧ c ≤ 'z') ∨ (c ≥ 'A' ∧ c ≤ 'Z') ∨ (c ≥ '0' ∧ c ≤ '9') ∨
    c = '+' ∨ c = '-' ∨ c = '.'

/-- `uses_params` of urlparse.py. -/
def usesParams : List Str :=
  ["ftp".toList, "hdl".toList, "prospero".toList, "http".toList,
   "imap".toList, "https".toList, "shttp".toList, "rtsp".toList,
   "rtspu".toList, "sip".toList, "sips".toList, "mms".toList,
   [], "sftp".toList, "tel".toList]

/-- A character that does not end the netloc (`_splitnetloc` scans for
`'/'`, `'?'`, `'#'`). -/
def netlocChar (c : Char) : Bool := ¬ (c = '/' ∨ c = '?' ∨ c = '#')

/-- `_splitnetloc(url, 2)`: `(url[2:delim], url[delim:])` with `delim` the
first of `'/?#'` at or after index 2. -/
def splitnetloc (s : Str) : Str × Str :=
  ((s.drop 2).takeWhile netlocChar, (s.drop 2).dropWhile netlocChar)

/-- The part of `urlsplit` shared by its fast path and general path once the
scheme has been removed: netloc ('//'-check, IPv6 bracket `ValueError`),
fragment, query. -/
def splitTail (scheme url : Str) : Except Unit SplitResult :=
  let nl := if url.take 2 = "//".toList then splitnetloc url else ([], url)
  if ('[' ∈ nl.1 ∧ ']' ∉ nl.1) ∨ (']' ∈ nl.1 ∧ '[' ∉ nl.1) then .error ()
  else
    let f := splitFirst '#' nl.2
    let q := splitFirst '?' f.1
    .ok ⟨scheme, nl.1, q.1, q.2, f.2⟩

/-- `urlparse.urlsplit(url)` of Python 2.7 (default scheme `''`,
`allow_fragments=True`; the parse cache is semantics-free and omitted). -/
def pyUrlsplit (url : Str) : Except Unit SplitResult :=
  match pyFind ':' url with
  | some i =>
    if i > 0 then
      if url.take i = "http".toList then
        splitTail "http".toList (url.drop (i + 1))
      else if (url.take i).all isSchemeChar then
        let rest := url.drop (i + 1)
        if rest = [] ∨ rest.any (fun c => ¬ c.isDigit) then
          splitTail (lowerStr (url.take i)) rest
        else splitTail [] url
      else splitTail [] url
    else splitTail [] url
  | none => splitTail [] url

/-- `urlparse._splitparams`. The caller guarantees `';' ∈ url`; in the
no-`'/'` branch the first `';'` therefore exists. -/
def splitParams (url : Str) : Str × Str :=
  match pyRFind '/' url with
  | some j =>
    match pyFindFrom ';' url j with
    | some i => (url.take i, url.drop (i + 1))
    | none => (url, [])
  | none =>
    match pyFind ';' url with
    | some i => (url.take i, url.drop (i + 1))
    | none => (url, [])

/-- `urlparse.urlparse(url)` of Python 2.7. -/
def pyUrlparse (url : Str) : Except Unit ParseResult :=
  match pyUrlsplit url with
  | .error e => .error e
  | .ok s =>
    if s.scheme ∈ usesParams ∧ ';' ∈ s.path then
      let p := splitParams s.path
      .ok ⟨s.scheme, s.netloc, p.1, p.2, s.query, s.fragment⟩
    else .ok ⟨s.scheme, s.netloc, s.path, [], s.query, s.fragment⟩

/-- `urlparse.urlunsplit`. -/
def pyUrlunsplit (scheme netloc url query fragment : Str) : Str :=
  let u1 :=
    if netloc ≠ [] ∨ (url ≠ [] ∧ url.take 2 = "//".toList) then
      "//".toList ++ netloc ++
        (if url ≠ [] ∧ url.take 1 ≠ "/".toList then '/' :: url else url)
    else url
  let u2 := if scheme ≠ [] then scheme ++ ':' :: u1 else u1
  let u3 := if query ≠ [] then u2 ++ '?' :: query else u2
  if fragment ≠ [] then u3 ++ '#' :: fragment else u3

/-- `urlparse.urlunparse`. -/
def pyUrlunparse (scheme netloc url params query fragment : Str) : Str :=
  if params ≠ [] then pyUrlunsplit scheme netloc (url ++ ';' :: params) query fragment
  else pyUrlunsplit scheme netloc url query fragment

/-! ## clean_url (site_diff.py lines 107-132) -/

/-- The dot-segment loop of `clean_url`: skip `'.'`, pop on `'..'` when the
accumulator is non-empty, append anything else. -/
def collapseDots (acc : List Str) : List Str → List Str
  | [] => acc
  | p :: rest =>
    if p = ".".toList then collapseDots acc rest
    else if p = "..".toList then collapseDots acc.dropLast rest
    else collapseDots (acc ++ [p]) rest

/-- `clean_url(url, force_scheme)`. `forceScheme = []` is Python's falsy
`None`/`''` (no substitution). Raises (`.error`) exactly when `urlparse`
does. -/
def clean_url (url : Str) (forceScheme : Str) : Except Unit Str :=
  match pyUrlparse url with
  | .error e => .error e
  | .ok parts =>
    let pathParts := collapseDots [] (splitOnChar '/' parts.path)
    let scheme := if forceScheme ≠ [] then forceScheme else parts.scheme
    let newPath := joinChar '/' pathParts
    let newPath := if newPath = [] then "/".toList else newPath
    .ok (pyUrlunparse scheme parts.netloc newPath parts.params [] [])

/-! ## The rewrite patterns (site_diff.py lines 69-104)

Each of the five `REPLACEMENT_REGEXES` substitutions, and the final
`MAYBE_HTML_URL_REGEX` scan, is a hand-compiled matcher for the pattern at
one position of the text; `subAll`/`finditerAbs` provide `re.sub` /
`re.finditer` scanning (leftmost, non-overlapping, replacement text not
rescanned). The `(?i)` flag makes every literal of the patterns
case-insensitive; alternatives are tried in the pattern's order. All the
patterns' alternations and greedy repetitions are over disjoint character
sets, so the hand-compiled deterministic matchers realise the backtracking
semantics exactly. -/

/-- Case-insensitive literal match: `(consumed original text, rest)`. -/
def stripCI : Str → Str → Option (Str × Str)
  | [], s => some ([], s)
  | _ :: _, [] => none
  | p :: ps, c :: cs =>
    if c.toLower = p.toLower then
      match stripCI ps cs with
      | some (t, r) => some (c :: t, r)
      | none => none
    else none

/-- `re` `\s` for Python 2 `str` patterns without `re.UNICODE`. -/
def isSpaceRe (c : Char) : Bool :=
  c = ' ' ∨ c = '\t' ∨ c = '\n' ∨ c = '\r' ∨ c = '\x0c' ∨ c = '\x0b'

/-- The value character class `[^\"'> \t]` of the URL patterns. -/
def isUrlChar (c : Char) : Bool :=
  ¬ (c = '"' ∨ c = '\'' ∨ c = '>' ∨ c = ' ' ∨ c = '\t')

/-- `(?P<tag>\ssrc|href|action|url|background)`, case-insensitive. The
alternatives start with pairwise distinct characters, so at most one can
match at a position. -/
def matchTagAttr (s : Str) : Option (Str × Str) :=
  match s with
  | [] => none
  | c :: cs =>
    if isSpaceRe c then
      match stripCI "src".toList cs with
      | some (t, r) => some (c :: t, r)
      | none => none
    else
      match stripCI "href".toList s with
      | some r => some r
      | none =>
        match stripCI "action".toList s with
        | some r => some r
        | none =>
          match stripCI "url".toList s with
          | some r => some r
          | none => stripCI "background".toList s

/-- `(?P<equals>[\t ]*=[\t ]*)`. -/
def matchEquals (s : Str) : Option (Str × Str) :=
  let sp1 := s.takeWhile (fun c => c = '\t' ∨ c = ' ')
  match s.dropWhile (fun c => c = '\t' ∨ c = ' ') with
  | '=' :: r2 =>
    some (sp1 ++ '=' :: r2.takeWhile (fun c => c = '\t' ∨ c = ' '),
          r2.dropWhile (fun c => c = '\t' ∨ c = ' '))
  | _ => none

/-- `(?P<quote>[\"']?)`. -/
def matchQuote (s : Str) : Str × Str :=
  match s with
  | c :: cs => if c = '"' ∨ c = '\'' then ([c], cs) else ([], s)
  | [] => ([], [])

/-- `TAG_START`: `(consumed text = tag ++ equals ++ quote, rest)`. -/
def matchTagStart (s : Str) : Option (Str × Str) :=
  match matchTagAttr s with
  | none => none
  | some (tagTxt, r1) =>
    match matchEquals r1 with
    | none => none
    | some (eqTxt, r2) =>
      let q := matchQuote r2
      some (tagTxt ++ eqTxt ++ q.1, q.2)

/-- The `(http(s?)://)` negative-lookahead test (case-insensitive). -/
def lookSchemeSlashes (s : Str) : Bool :=
  (stripCI "http://".toList s).isSome ∨ (stripCI "https://".toList s).isSome

/-- `SAME_DIR_URL_REGEX`:
`(?!(/)|(http(s?)://)|(#)|(url\())(?P<url>[^\"'> \t]+)`. -/
def matchSameDir (s : Str) : Option (Str × Str) :=
  match s with
  | [] => none
  | c :: _ =>
    if c = '/' ∨ c = '#' then none
    else if lookSchemeSlashes s ∨ (stripCI "url(".toList s).isSome then none
    else
      let url := s.takeWhile isUrlChar
      if url = [] then none else some (url, s.dropWhile isUrlChar)

/-- `TRAVERSAL_URL_REGEX`:
`(?P<relative>\.(\.)?)/(?!(/)|(http(s?)://)|(url\())(?P<url>[^\"'> \t]*)`;
returns `(relative, url, rest)`. -/
def matchTraversal (s : Str) : Option (Str × Str × Str) :=
  let rel : Option (Str × Str) :=
    match s with
    | '.' :: '.' :: '/' :: r => some ("..".toList, r)
    | '.' :: '/' :: r => some (".".toList, r)
    | _ => none
  match rel with
  | none => none
  | some (relTxt, r) =>
    if headIs '/' r ∨ lookSchemeSlashes r ∨ (stripCI "url(".toList r).isSome then none
    else some (relTxt, r.takeWhile isUrlChar, r.dropWhile isUrlChar)

/-- `BASE_RELATIVE_URL_REGEX`:
`/(?!(/)|(http(s?)://)|(url\())(?P<url>[^\"'> \t]*)`. -/
def matchBaseRel (s : Str) : Option (Str × Str) :=
  match s with
  | '/' :: r =>
    if headIs '/' r ∨ lookSchemeSlashes r ∨ (stripCI "url(".toList r).isSome then none
    else some (r.takeWhile isUrlChar, r.dropWhile isUrlChar)
  | _ => none

/-- The trailing lookahead `(?=[ \t\n]*[\"'> /])` of `ROOT_DIR_URL_REGEX`:
some run of `[ \t\n]` followed by one of `\"'> /` (`' '` is in both classes,
so it succeeds immediately). -/
def rootDirAfter : Str → Bool
  | [] => false
  | c :: cs =>
    if c = '"' ∨ c = '\'' ∨ c = '>' ∨ c = ' ' ∨ c = '/' then true
    else if c = '\t' ∨ c = '\n' then rootDirAfter cs
    else false

/-- `ROOT_DIR_URL_REGEX`: `(?!//(?!>))/(?P<url>)(?=[ \t\n]*[\"'> /])`;
returns the rest after the consumed `'/'`. -/
def matchRootDir (s : Str) : Option Str :=
  if s.take 2 = "//".toList ∧ ¬ (s.drop 2).take 1 = ">".toList then none
  else
    match s with
    | '/' :: r => if rootDirAfter r then some r else none
    | _ => none

/-- `(?P<url>(http(s?):)?//[^\"'> \t]+)` — also the `absurl` group of
`MAYBE_HTML_URL_REGEX`. -/
def matchAbsUrl (s : Str) : Option (Str × Str) :=
  let sch : Str × Str :=
    match stripCI "https:".toList s with
    | some r => r
    | none =>
      match stripCI "http:".toList s with
      | some r => r
      | none => ([], s)
  match sch.2 with
  | '/' :: '/' :: r2 =>
    let run := r2.takeWhile isUrlChar
    if run = [] then none
    else some (sch.1 ++ '/' :: '/' :: run, r2.dropWhile isUrlChar)
  | _ => none

/-- `re.sub` scanning with a positional matcher returning
`(replacement, rest after the match)`; every matcher consumes at least one
character, so fuel = length of the text suffices. -/
def subAll (m : Str → Option (Str × Str)) : Nat → Str → Str
  | 0, s => s
  | _ + 1, [] => []
  | fuel + 1, c :: cs =>
    match m (c :: cs) with
    | some (repl, rest) => repl ++ subAll m fuel rest
    | none => c :: subAll m fuel cs

/-- Rule 1: `TAG_START + SAME_DIR_URL_REGEX` →
`\g<tag>\g<equals>\g<quote>%(accessed_dir)s\g<url>`. -/
def applyRule1 (accessedDir : Str) (s : Str) : Option (Str × Str) :=
  match matchTagStart s with
  | none => none
  | some (pre, r) =>
    match matchSameDir r with
    | none => none
    | some (url, rest) => some (pre ++ accessedDir ++ url, rest)

/-- Rule 2: `TAG_START + TRAVERSAL_URL_REGEX` →
`\g<tag>\g<equals>\g<quote>%(accessed_dir)s/\g<relative>/\g<url>`. -/
def applyRule2 (accessedDir : Str) (s : Str) : Option (Str × Str) :=
  match matchTagStart s with
  | none => none
  | some (pre, r) =>
    match matchTraversal r with
    | none => none
    | some (relTxt, url, rest) =>
      some (pre ++ accessedDir ++ '/' :: relTxt ++ '/' :: url, rest)

/-- Rule 3: `TAG_START + BASE_RELATIVE_URL_REGEX` →
`\g<tag>\g<equals>\g<quote>%(base)s/\g<url>`. -/
def applyRule3 (base : Str) (s : Str) : Option (Str × Str) :=
  match matchTagStart s with
  | none => none
  | some (pre, r) =>
    match matchBaseRel r with
    | none => none
    | some (url, rest) => some (pre ++ base ++ '/' :: url, rest)

/-- Rule 4: `TAG_START + ROOT_DIR_URL_REGEX` →
`\g<tag>\g<equals>\g<quote>%(base)s/`. -/
def applyRule4 (base : Str) (s : Str) : Option (Str × Str) :=
  match matchTagStart s with
  | none => none
  | some (pre, r) =>
    match matchRootDir r with
    | none => none
    | some rest => some (pre ++ base ++ ['/'], rest)

/-- Rule 5: `TAG_START + ABSOLUTE_URL_REGEX` →
`\g<tag>\g<equals>\g<quote>\g<url>` (reproduces the match verbatim). -/
def applyRule5 (s : Str) : Option (Str × Str) :=
  match matchTagStart s with
  | none => none
  | some (pre, r) =>
    match matchAbsUrl r with
    | none => none
    | some (url, rest) => some (pre ++ url, rest)

/-- One position of `MAYBE_HTML_URL_REGEX`: `(absurl group, rest)`. -/
def matchMaybeHtml (s : Str) : Option (Str × Str) :=
  match matchTagStart s with
  | none => none
  | some (_, r) =>
    match matchAbsUrl r with
    | none => none
    | some (absurl, rest) => some (absurl, rest)

/-- `re.finditer(MAYBE_HTML_URL_REGEX, data)`, collecting the `absurl`
group of each non-overlapping match. -/
def finditerAbs : Nat → Str → List Str
  | 0, _ => []
  | _ + 1, [] => []
  | fuel + 1, c :: cs =>
    match matchMaybeHtml (c :: cs) with
    | some (absurl, rest) => absurl :: finditerAbs fuel rest
    | none => finditerAbs fuel cs

/-! ## HTMLParser.unescape (Python 2.7) -/

def isHexDigitCh (c : Char) : Bool :=
  (c ≥ '0' ∧ c ≤ '9') ∨ (c ≥ 'a' ∧ c ≤ 'f') ∨ (c ≥ 'A' ∧ c ≤ 'F')

/-- `\w` for `str` patterns without `re.UNICODE`. -/
def isWordChar (c : Char) : Bool := c.isAlphanum ∨ c = '_'

/-- `(?:[0-9a-fA-F]+|\w{1,8})` followed by `';'`. Only the maximal run can
be followed by `';'` (shorter prefixes are followed by a class character),
so the greedy/backtracking semantics reduce to the two maximal runs. -/
def entityBody (t : Str) : Option (Str × Str) :=
  let hexRun := t.takeWhile isHexDigitCh
  let afterHex := t.dropWhile isHexDigitCh
  if hexRun ≠ [] ∧ afterHex.take 1 = ";".toList then some (hexRun, afterHex.drop 1)
  else
    let wRun := t.takeWhile isWordChar
    let afterW := t.dropWhile isWordChar
    if wRun ≠ [] ∧ wRun.length ≤ 8 ∧ afterW.take 1 = ";".toList then
      some (wRun, afterW.drop 1)
    else none

/-- Digits of an `int(s, base)` literal; `none` on any invalid character or
empty digits (Python's `ValueError`). -/
def parseIntDigits (base : Nat) : Str → Option Nat
  | [] => some 0
  | c :: cs =>
    let d : Option Nat :=
      if c ≥ '0' ∧ c ≤ '9' then some (c.toNat - '0'.toNat)
      else if c ≥ 'a' ∧ c ≤ 'z' then some (c.toNat - 'a'.toNat + 10)
      else if c ≥ 'A' ∧ c ≤ 'Z' then some (c.toNat - 'A'.toNat + 10)
      else none
    match d with
    | none => none
    | some dv =>
      if dv < base then (parseIntDigits base cs).map (fun n => n * base + dv)
      else none

def pyInt (base : Nat) (s : Str) : Option Nat :=
  if s = [] then none else parseIntDigits base s

/-- Named entities the model decodes; a name outside the table takes the
`KeyError` branch and is left as `&name;`. (`HTMLParser.entitydefs` is
`{'apos': u\"'\"}` plus all of `htmlentitydefs.name2codepoint`; the table
here carries the names common in documents — the claims below never reach
this branch, every string they evaluate is `'&'`-free.) -/
def entityTable : List (Str × Char) :=
  [("apos".toList, '\''), ("amp".toList, '&'), ("lt".toList, '<'),
   ("gt".toList, '>'), ("quot".toList, '"'), ("nbsp".toList, '\xa0')]

def entityLookup (name : Str) : Option Char :=
  (entityTable.find? (fun p => p.1 = name)).map (·.2)

/-- `replaceEntities` of `HTMLParser.unescape`, applied to the captured
group `g`; returns the replacement text. `unichr` values outside Lean's
scalar range take the `ValueError` branch (a wide Python 2 build would
produce the raw code point; no claim evaluates such an entity). -/
def replaceEntities (g : Str) : Str :=
  match g with
  | '#' :: s =>
    let n : Option Nat :=
      match s with
      | 'x' :: ds => pyInt 16 ds
      | 'X' :: ds => pyInt 16 ds
      | _ => pyInt 10 s
    match n with
    | some v =>
      if h : v < 0xd800 ∨ (0xdfff < v ∧ v < 0x110000) then [Char.ofNatAux v h]
      else '&' :: '#' :: s ++ [';']
    | none => '&' :: '#' :: s ++ [';']
  | _ =>
    match entityLookup g with
    | some c => [c]
    | none => '&' :: g ++ [';']

/-- One position of `&(#?[xX]?(?:[0-9a-fA-F]+|\w{1,8}));`, returning
`(replacement, rest)`. -/
def matchEntity (s : Str) : Option (Str × Str) :=
  match s with
  | '&' :: t =>
    let hp : Str × Str := match t with | '#' :: r => (['#'], r) | _ => ([], t)
    let withX : Option (Str × Str) :=
      match hp.2 with
      | c :: r =>
        if c = 'x' ∨ c = 'X' then
          (entityBody r).map (fun br => (hp.1 ++ c :: br.1, br.2))
        else none
      | [] => none
    match withX with
    | some (g, rest) => some (replaceEntities g, rest)
    | none =>
      match entityBody hp.2 with
      | some (g, rest) => some (replaceEntities (hp.1 ++ g), rest)
      | none => none
  | _ => none

/-- `HTMLParser.HTMLParser().unescape(s)` — identity when `'&'` is absent. -/
def htmlUnescape (s : Str) : Str :=
  if '&' ∈ s then subAll matchEntity s.length s else s

/-! ## extract_urls (site_diff.py lines 135-159) -/

/-- `posixpath.dirname`. -/
def posixDirname (p : Str) : Str :=
  let i := match pyRFind '/' p with | some j => j + 1 | none => 0
  let head := p.take i
  if head ≠ [] ∧ head.any (fun c => ¬ c = '/') then
    (head.reverse.dropWhile (· = '/')).reverse
  else head

/-- The `clean_url(unescape(found), force_scheme=parts[0])` loop over the
matches, accumulating a set. -/
def cleanFound (scheme : Str) : List Str → List Str → Except Unit (List Str)
  | [], acc => .ok acc
  | f :: fs, acc =>
    match clean_url (htmlUnescape f) scheme with
    | .error e => .error e
    | .ok v => cleanFound scheme fs (setInsert acc v)

/-- `extract_urls(url, data)` (default `unescape`). -/
def extract_urls (url : Str) (data : Str) : Except Unit (List Str) :=
  match pyUrlparse url with
  | .error e => .error e
  | .ok parts =>
    let base := parts.scheme ++ "://".toList ++ parts.netloc
    let ad := posixDirname parts.path
    let accessedDir := if ¬ pyEndswith ad "/".toList then ad ++ ['/'] else ad
    let d1 := subAll (applyRule1 accessedDir) data.length data
    let d2 := subAll (applyRule2 accessedDir) d1.length d1
    let d3 := subAll (applyRule3 base) d2.length d2
    let d4 := subAll (applyRule4 base) d3.length d3
    let d5 := subAll applyRule5 d4.length d4
    cleanFound parts.scheme (finditerAbs d5.length d5) []

/-! ## prune_urls (site_diff.py lines 162-195) -/

def IGNORE_SUFFIXES : List Str :=
  ["jpg".toList, "jpeg".toList, "png".toList, "css".toList, "js".toList,
   "xml".toList, "json".toList, "gif".toList, "ico".toList, "doc".toList]

/-- `prune_urls(url_set, start_url, allowed_list, ignored_list)`
(`start_url` is accepted and unused, as in the source). -/
def prune_urls (urlSet : List Str) (startUrl : Str)
    (allowedList ignoredList : List Str) : List Str :=
  urlSet.filter fun url =>
    (allowedList.any fun a => pyStartswith url a) &&
    !(ignoredList.any fun i => pyStartswith url i) &&
    !(decide (lowerStr (rsplitSuffix '.' url) ∈ IGNORE_SUFFIXES))

/-! ## The crawl controller (SiteDiff.run, site_diff.py lines 214-265)

Modelled from the spec: the `workers` framework is not under `src/`.
Following spec §5-§6, `yield [FetchItem(u) for u in pending_urls]` is a
join barrier returning one Fetch Result per requested URL; a
`workers.FetchItem`'s `url` is the requested URL, and the fetch
collaborator fills `data` (empty on failure) and the content type
(`item.headers.gettype()`). The collaborator is an oracle function of the
requested URL; heartbeat emission carries no state and is omitted. -/

structure FetchResponse where
  data : Str
  mimeType : Str
deriving DecidableEq, Repr

structure CrawlConfig where
  /-- `FLAGS.crawl_depth` (default -1 = unbounded). -/
  crawlDepth : Int
  startUrl : Str
  ignorePrefixes : List Str
  oracle : Str → FetchResponse

structure CrawlState where
  pending : List Str
  seen : List Str
  good : List Str
  depth : Nat
  /-- The fetch batches dispatched so far (one per executed level). -/
  trace : List (List Str)
deriving DecidableEq, Repr

/-- The `for item in output` body (lines 241-258): skip empty bodies and
non-HTML; otherwise record the URL as good, extract, prune against
`[start_url]` and the ignore list, and add `pruned - seen_urls` to the
next frontier. `seen1` is `seen_urls` as updated at the top of the level. -/
def processOutput (cfg : CrawlConfig) (seen1 : List Str) :
    List Str → List Str → List Str → Except Unit (List Str × List Str)
  | [], good, pend => .ok (good, pend)
  | u :: rest, good, pend =>
    let res := cfg.oracle u
    if res.data = [] then processOutput cfg seen1 rest good pend
    else if res.mimeType ≠ "text/html".toList then
      processOutput cfg seen1 rest good pend
    else
      let good2 := setInsert good u
      match extract_urls u res.data with
      | .error e => .error e
      | .ok found =>
        let pruned := prune_urls found cfg.startUrl [cfg.startUrl] cfg.ignorePrefixes
        processOutput cfg seen1 rest good2 (setUnion pend (setDiff pruned seen1))

/-- One iteration of the crawl loop: `seen_urls.update(pending_urls)`,
dispatch the batch, clear the frontier and process every result. -/
def levelStep (cfg : CrawlConfig) (st : CrawlState) : Except Unit CrawlState :=
  let seen1 := setUnion st.seen st.pending
  match processOutput cfg seen1 st.pending st.good [] with
  | .error e => .error e
  | .ok gp => .ok ⟨gp.2, seen1, gp.1, st.depth + 1, st.trace ++ [st.pending]⟩

/-- `while (not limit_depth or depth <= FLAGS.crawl_depth) and pending_urls`
(`limit_depth = crawl_depth >= 0`), run on fuel: an unbounded crawl of a
cyclic site never terminates, and fuel bounds the executed levels without
changing any state a terminating run reaches. -/
def crawlLoop (cfg : CrawlConfig) : Nat → CrawlState → Except Unit CrawlState
  | 0, st => .ok st
  | fuel + 1, st =>
    if (cfg.crawlDepth < 0 ∨ (st.depth : Int) ≤ cfg.crawlDepth) ∧ st.pending ≠ [] then
      match levelStep cfg st with
      | .error e => .error e
      | .ok st2 => crawlLoop cfg fuel st2
    else .ok st

def initState (s0 : Str) : CrawlState := ⟨[s0], [], [], 0, []⟩

/-- Lines 225-233: seed the frontier with `clean_url(start_url)` and run
the crawl loop. -/
def siteDiffCrawl (cfg : CrawlConfig) (fuel : Nat) : Except Unit CrawlState :=
  match clean_url cfg.startUrl [] with
  | .error e => .error e
  | .ok s0 => crawlLoop cfg fuel (initState s0)

/-! ## The publishing phase (SiteDiff.run, site_diff.py lines 267-297)

Modelled from the spec where the publishing collaborator is concerned:
`release_worker` and the `workers` yield semantics are not under `src/`.
Per spec §4.4/§5, yielding the list `run_requests` is a join barrier that
completes every registration before the `RunsDoneWorkflow` yield; the
release number is the publishing collaborator's `create_release` response
and is threaded as a parameter. The emitted collaborator requests are
recorded as an action sequence. -/

structure ViewportSize where
  width : Nat
  height : Nat
deriving DecidableEq

/-- The structure of the `config_data` JSON payload. -/
structure RunConfig where
  viewportSize : ViewportSize
deriving DecidableEq

/-- `json.dumps({'viewportSize': {'width': 1024, 'height': 768}})`, as the
structured value (Python 2's dict serialization order is hash-table order;
the payload's content is order-independent). -/
def configJson : RunConfig := ⟨⟨1024, 768⟩⟩

/-- `release_worker.RequestRunWorkflow(upload_build_id,
upload_release_name, release_number, run_name, url, config_data=...)`. -/
structure RunRequest where
  buildId : Option Str
  releaseName : Str
  releaseNumber : Nat
  runName : Str
  url : Str
  configData : RunConfig
deriving DecidableEq

inductive PubAction where
  /-- `CreateReleaseWorkflow(upload_build_id, upload_release_name, start_url)`. -/
  | createRelease (buildId : Option Str) (releaseName : Str) (startUrl : Str)
  /-- `yield run_requests`: the registration batch, a join barrier. -/
  | runBatch (requests : List RunRequest)
  /-- `RunsDoneWorkflow(upload_build_id, upload_release_name, release_number)`. -/
  | runsDone (buildId : Option Str) (releaseName : Str) (releaseNumber : Nat)
deriving DecidableEq

/-- The `for url in good_urls` loop (lines 274-289): one request per
accepted URL, `run_name = urlparse(url).path`, fixed config payload. -/
def buildRunRequests (buildId : Option Str) (releaseName : Str)
    (releaseNumber : Nat) : List Str → Except Unit (List RunRequest)
  | [] => .ok []
  | url :: rest =>
    match pyUrlparse url with
    | .error e => .error e
    | .ok parts =>
      match buildRunRequests buildId releaseName releaseNumber rest with
      | .error e => .error e
      | .ok rs =>
        .ok (⟨buildId, releaseName, releaseNumber, parts.path, url, configJson⟩ :: rs)

/-- Lines 271-295 as the sequence of publishing-collaborator actions:
create the release, register every accepted URL (one barrier batch),
then finalize. -/
def publishPhase (goodUrls : List Str) (buildId : Option Str)
    (releaseName : Str) (releaseNumber : Nat) (startUrl : Str) :
    Except Unit (List PubAction) :=
  match buildRunRequests buildId releaseName releaseNumber goodUrls with
  | .error e => .error e
  | .ok reqs =>
    .ok [.createRelease buildId releaseName startUrl, .runBatch reqs,
         .runsDone buildId releaseName releaseNumber]

/-! ## Concrete instances used by the claims -/

/-- A crawl configuration whose root serves one root-relative link. -/
def cfgLinkA : CrawlConfig :=
  ⟨-1, "http://h/".toList, [],
   fun u => if u = "http://h/".toList
     then ⟨" href=\"/a\"".toList, "text/html".toList⟩ else ⟨[], []⟩⟩

/-- A crawl configuration whose fetches all fail (empty bodies), with a
start URL that `clean_url` does not fix. -/
def cfgEmpty : CrawlConfig := ⟨-1, "http://h".toList, [], fun _ => ⟨[], []⟩⟩

/-- `cfgLinkA` with the depth bound set to 0. -/
def cfgDepth0 : CrawlConfig := ⟨0, "http://h/".toList, [], cfgLinkA.oracle⟩

/-- The state one level of `cfgLinkA`'s crawl reaches. -/
def stLinkA : CrawlState :=
  ⟨["http://h/a".toList], ["http://h/".toList], ["http://h/".toList], 1,
   [["http://h/".toList]]⟩

/-- The state `cfgEmpty`'s crawl terminates in. -/
def stEmptyRun : CrawlState :=
  ⟨[], ["http://h/".toList], [], 1, [["http://h/".toList]]⟩

/-! # Helper lemmas -/

theorem pyFind_append {c : Char} {xs : Str} {i : Nat} (ys : Str)
    (h : pyFind c xs = some i) : pyFind c (xs ++ ys) = some i := by
  induction xs generalizing i with
  | nil => simp [pyFind] at h
  | cons x xs ih =>
    by_cases hx : x = c
    · simpa [pyFind, hx] using h
    · simp only [pyFind, if_neg hx, List.cons_append] at h ⊢
      obtain ⟨j, hj, rfl⟩ := Option.map_eq_some'.mp h
      simp [ih hj]

theorem takeWhile_eq_self_of_all {p : Char → Bool} {l : Str}
    (h : ∀ x ∈ l, p x = true) : l.takeWhile p = l := by
  induction l with
  | nil => rfl
  | cons x xs ih =>
    simp only [List.takeWhile_cons, h x (by simp)]
    simpa using ih fun y hy => h y (by simp [hy])

theorem dropWhile_eq_nil_of_all {p : Char → Bool} {l : Str}
    (h : ∀ x ∈ l, p x = true) : l.dropWhile p = [] := by
  induction l with
  | nil => rfl
  | cons x xs ih =>
    simp only [List.dropWhile_cons, h x (by simp)]
    simpa using ih fun y hy => h y (by simp [hy])

theorem splitFirst_not_mem {c : Char} {s : Str} (h : c ∉ s) :
    splitFirst c s = (s, []) := by
  induction s with
  | nil => rfl
  | cons x xs ih =>
    have hx : x ≠ c := fun he => h (he ▸ List.mem_cons_self x xs)
    have hxs := ih fun hm => h (List.mem_cons.mpr (Or.inr hm))
    simp [splitFirst, hx, hxs]

theorem mem_splitFirst_fst {c a : Char} {s : Str}
    (h : a ∈ (splitFirst c s).1) : a ∈ s ∧ a ≠ c := by
  induction s with
  | nil => simp [splitFirst] at h
  | cons x xs ih =>
    by_cases hx : x = c
    · simp [splitFirst, hx] at h
    · simp only [splitFirst, if_neg hx] at h
      rcases List.mem_cons.mp h with rfl | h
      · exact ⟨List.mem_cons_self a xs, hx⟩
      · exact ⟨List.mem_cons.mpr (Or.inr (ih h).1), (ih h).2⟩

theorem splitOnChar_ne_nil (c : Char) (s : Str) : splitOnChar c s ≠ [] := by
  cases s with
  | nil => simp [splitOnChar]
  | cons x xs =>
    simp only [splitOnChar]
    split
    · simp
    · split <;> simp

theorem splitOnChar_cons_self (c : Char) (xs : Str) :
    splitOnChar c (c :: xs) = [] :: splitOnChar c xs := by
  simp only [splitOnChar]
  rcases hs : splitOnChar c xs with _ | ⟨h, t⟩
  · exact absurd hs (splitOnChar_ne_nil c xs)
  · simp

theorem splitOnChar_cons_ne (c x : Char) (xs : Str) (hx : x ≠ c) :
    ∃ h t, splitOnChar c xs = h :: t ∧ splitOnChar c (x :: xs) = (x :: h) :: t := by
  rcases hs : splitOnChar c xs with _ | ⟨h, t⟩
  · exact absurd hs (splitOnChar_ne_nil c xs)
  · exact ⟨h, t, rfl, by simp [splitOnChar, hs, hx]⟩

theorem mem_splitOnChar_not_sep {c : Char} {s : Str} {x : Str}
    (h : x ∈ splitOnChar c s) : c ∉ x := by
  induction s generalizing x with
  | nil => simp [splitOnChar] at h; simp [h]
  | cons y ys ih =>
    by_cases hy : y = c
    · subst hy; rw [splitOnChar_cons_self] at h
      rcases List.mem_cons.mp h with rfl | h
      · simp
      · exact ih h
    · obtain ⟨hd, tl, hs, hcons⟩ := splitOnChar_cons_ne c y ys hy
      rw [hcons] at h
      rcases List.mem_cons.mp h with rfl | h
      · intro hc
        rcases List.mem_cons.mp hc with rfl | hc
        · exact hy rfl
        · exact ih (hs ▸ List.mem_cons_self hd tl) hc
      · exact ih (hs ▸ List.mem_cons.mpr (Or.inr h))

theorem mem_of_mem_splitOnChar {c a : Char} {s : Str} {x : Str}
    (hx : x ∈ splitOnChar c s) (ha : a ∈ x) : a ∈ s := by
  induction s generalizing x with
  | nil => simp [splitOnChar] at hx; simp [hx] at ha
  | cons y ys ih =>
    by_cases hy : y = c
    · subst hy; rw [splitOnChar_cons_self] at hx
      rcases List.mem_cons.mp hx with rfl | hx
      · simp at ha
      · exact List.mem_cons.mpr (Or.inr (ih hx ha))
    · obtain ⟨hd, tl, hs, hcons⟩ := splitOnChar_cons_ne c y ys hy
      rw [hcons] at hx
      rcases List.mem_cons.mp hx with rfl | hx
      · rcases List.mem_cons.mp ha with rfl | ha
        · simp
        · exact List.mem_cons.mpr (Or.inr (ih (hs ▸ List.mem_cons_self hd tl) ha))
      · exact List.mem_cons.mpr (Or.inr (ih (hs ▸ List.mem_cons.mpr (Or.inr hx)) ha))

theorem joinChar_splitOnChar (c : Char) (s : Str) :
    joinChar c (splitOnChar c s) = s := by
  induction s with
  | nil => rfl
  | cons x xs ih =>
    by_cases hx : x = c
    · subst hx
      rw [splitOnChar_cons_self]
      rcases hs : splitOnChar x xs with _ | ⟨h, t⟩
      · exact absurd hs (splitOnChar_ne_nil x xs)
      · rw [hs] at ih; simpa [joinChar] using ih
    · obtain ⟨hd, tl, hs, hcons⟩ := splitOnChar_cons_ne c x xs hx
      rw [hcons]
      rw [hs] at ih
      cases tl with
      | nil => simpa [joinChar] using ih
      | cons t ts => simpa [joinChar] using ih

theorem splitOnChar_joinChar {c : Char} {parts : List Str}
    (hparts : parts ≠ []) (hsep : ∀ x ∈ parts, c ∉ x) :
    splitOnChar c (joinChar c parts) = parts := by
  induction parts with
  | nil => exact absurd rfl hparts
  | cons p ps ih =>
    cases ps with
    | nil =>
      simp only [joinChar]
      have hp : c ∉ p := hsep p (by simp)
      clear ih hparts hsep
      induction p with
      | nil => rfl
      | cons a as iha =>
        have ha : a ≠ c := fun he => hp (he ▸ List.mem_cons_self a as)
        obtain ⟨hd, tl, hs, hcons⟩ := splitOnChar_cons_ne c a as ha
        rw [hcons]
        have := iha (fun hm => hp (List.mem_cons.mpr (Or.inr hm)))
        rw [this] at hs
        cases hs; rfl
    | cons q qs =>
      have hrec : splitOnChar c (joinChar c (q :: qs)) = q :: qs :=
        ih (by simp) (fun x hx => hsep x (List.mem_cons.mpr (Or.inr hx)))
      have hp : c ∉ p := hsep p (by simp)
      simp only [joinChar]
      have key : ∀ (pre : Str), c ∉ pre →
          splitOnChar c (pre ++ c :: joinChar c (q :: qs)) =
            (pre ++ []) :: splitOnChar c (joinChar c (q :: qs)) := by
        intro pre hpre
        induction pre with
        | nil => simpa using splitOnChar_cons_self c _
        | cons a as iha =>
          have ha : a ≠ c := fun he => hpre (he ▸ List.mem_cons_self a as)
          have ih2 := iha (fun hm => hpre (List.mem_cons.mpr (Or.inr hm)))
          rcases hs2 : splitOnChar c (as ++ c :: joinChar c (q :: qs)) with _ | ⟨h2, t2⟩
          · exact absurd hs2 (splitOnChar_ne_nil c _)
          · obtain ⟨hd, tl, hs, hcons⟩ := splitOnChar_cons_ne c a _ ha
            rw [List.cons_append, hcons]
            rw [hs] at hs2
            cases hs2
            rw [ih2] at hs
            cases hs
            simp
      rw [key p hp, hrec]
      simp

theorem mem_joinChar {c a : Char} {parts : List Str}
    (h : a ∈ joinChar c parts) : a = c ∨ ∃ x ∈ parts, a ∈ x := by
  induction parts with
  | nil => simp [joinChar] at h
  | cons p ps ih =>
    cases ps with
    | nil => exact Or.inr ⟨p, by simpa [joinChar] using h⟩
    | cons q qs =>
      simp only [joinChar, List.mem_append, List.mem_cons] at h
      rcases h with h | h | h
      · exact Or.inr ⟨p, by simp, h⟩
      · exact Or.inl h
      · rcases ih h with h | ⟨x, hx, ha⟩
        · exact Or.inl h
        · exact Or.inr ⟨x, List.mem_cons.mpr (Or.inr hx), ha⟩

/-! collapseDots -/

theorem collapseDots_no_dots {parts : List Str} (acc : List Str)
    (h : ∀ x ∈ parts, ¬ x = ".".toList ∧ ¬ x = "..".toList) :
    collapseDots acc parts = acc ++ parts := by
  induction parts generalizing acc with
  | nil => simp [collapseDots]
  | cons p ps ih =>
    have hp := h p (by simp)
    rw [collapseDots, if_neg hp.1, if_neg hp.2,
      ih (acc ++ [p]) (fun x hx => h x (List.mem_cons.mpr (Or.inr hx)))]
    simp

theorem mem_collapseDots {parts acc : List Str} {x : Str}
    (h : x ∈ collapseDots acc parts) : x ∈ acc ∨ x ∈ parts := by
  induction parts generalizing acc with
  | nil => exact Or.inl (by simpa [collapseDots] using h)
  | cons p ps ih =>
    rw [collapseDots] at h
    split at h
    · rcases ih h with h | h
      · exact Or.inl h
      · exact Or.inr (List.mem_cons.mpr (Or.inr h))
    · split at h
      · rcases ih h with h | h
        · exact Or.inl ((List.dropLast_sublist acc).mem h)
        · exact Or.inr (List.mem_cons.mpr (Or.inr h))
      · rcases ih h with h | h
        · rcases List.mem_append.mp h with h | h
          · exact Or.inl h
          · rcases List.mem_singleton.mp h with rfl
            exact Or.inr (List.mem_cons_self _ ps)
        · exact Or.inr (List.mem_cons.mpr (Or.inr h))

theorem collapseDots_output_no_dots {parts acc : List Str}
    (hacc : ∀ x ∈ acc, ¬ x = ".".toList ∧ ¬ x = "..".toList) :
    ∀ x ∈ collapseDots acc parts, ¬ x = ".".toList ∧ ¬ x = "..".toList := by
  induction parts generalizing acc with
  | nil => simpa [collapseDots] using hacc
  | cons p ps ih =>
    rw [collapseDots]
    split
    · exact ih hacc
    · split
      · exact ih fun x hx => hacc x ((List.dropLast_sublist acc).mem hx)
      · refine ih fun x hx => ?_
        rcases List.mem_append.mp hx with h | h
        · exact hacc x h
        · rcases List.mem_singleton.mp h with rfl
          constructor <;> assumption

/-! set operations -/

theorem mem_setInsert {s : List Str} {x y : Str} :
    y ∈ setInsert s x ↔ y ∈ s ∨ y = x := by
  unfold setInsert
  split <;> rename_i h
  · constructor
    · exact Or.inl
    · rintro (hy | rfl)
      · exact hy
      · exact h
  · simp

theorem mem_setUnion {s t : List Str} {y : Str} :
    y ∈ setUnion s t ↔ y ∈ s ∨ y ∈ t := by
  unfold setUnion
  induction t generalizing s with
  | nil => simp
  | cons a ts ih =>
    rw [List.foldl_cons, ih, mem_setInsert, List.mem_cons]
    tauto

theorem mem_setDiff {s t : List Str} {y : Str} :
    y ∈ setDiff s t ↔ y ∈ s ∧ y ∉ t := by
  simp [setDiff, List.mem_filter]

/-! urlsplit -/

theorem pyUrlsplit_http (w : Str) :
    pyUrlsplit ("http:".toList ++ w) = splitTail "http".toList w := by
  have hf : pyFind ':' ("http:".toList ++ w) = some 4 := pyFind_append w (by decide)
  have ht : ("http:".toList ++ w).take 4 = "http".toList :=
    List.take_append_of_le_length (by decide)
  have hd : ("http:".toList ++ w).drop 5 = w := by
    rw [List.drop_append_of_le_length (by decide)]; rfl
  rw [pyUrlsplit, hf]
  simp [ht, hd]

theorem splitTail_no_netloc {scheme X : Str} (h2 : ¬ X.take 2 = "//".toList)
    (hh : '#' ∉ X) (hq : '?' ∉ X) :
    splitTail scheme X = .ok ⟨scheme, [], X, [], []⟩ := by
  rw [splitTail]
  simp only [if_neg h2]
  rw [if_neg (by simp)]
  simp [splitFirst_not_mem hh, splitFirst_not_mem hq]

theorem splitTail_netloc {scheme n P : Str}
    (hn : ∀ c ∈ n, netlocChar c = true) (hP : headIs '/' P = true)
    (hlb : '[' ∉ n) (hrb : ']' ∉ n) (hh : '#' ∉ P) (hq : '?' ∉ P) :
    splitTail scheme ('/' :: '/' :: (n ++ P)) = .ok ⟨scheme, n, P, [], []⟩ := by
  cases P with
  | nil => simp [headIs] at hP
  | cons p0 P' =>
  have hp0 : p0 = '/' := by simpa [headIs] using hP
  subst hp0
  rename' P' => P'
  have hnc : ¬ netlocChar '/' = true := by simp [netlocChar]
  have htw : (n ++ '/' :: P').takeWhile netlocChar = n := by
    rw [List.takeWhile_append, takeWhile_eq_self_of_all hn]
    simp [List.takeWhile_cons, hnc]
  have hdw : (n ++ '/' :: P').dropWhile netlocChar = '/' :: P' := by
    rw [List.dropWhile_append, dropWhile_eq_nil_of_all hn]
    simp [List.dropWhile_cons, hnc]
  rw [splitTail]
  have htake : (('/' :: '/' :: (n ++ '/' :: P')).take 2) = "//".toList := by
    simp [List.take_succ_cons]
  rw [if_pos htake]
  simp only [splitnetloc, List.drop_succ_cons, List.drop_zero, htw, hdw]
  rw [if_neg (by simp [hlb, hrb])]
  simp [splitFirst_not_mem hh, splitFirst_not_mem hq]

theorem splitTail_general {r : Str} (scheme : Str) (hlb : '[' ∉ r) (hrb : ']' ∉ r) :
    splitTail scheme ('/' :: '/' :: r) =
      .ok ⟨scheme, r.takeWhile netlocChar,
        (splitFirst '?' (splitFirst '#' (r.dropWhile netlocChar)).1).1,
        (splitFirst '?' (splitFirst '#' (r.dropWhile netlocChar)).1).2,
        (splitFirst '#' (r.dropWhile netlocChar)).2⟩ := by
  rw [splitTail]
  have htake : (('/' :: '/' :: r).take 2) = "//".toList := by
    simp [List.take_succ_cons]
  rw [if_pos htake]
  simp only [splitnetloc, List.drop_succ_cons, List.drop_zero]
  rw [if_neg ?hbr]
  case hbr =>
    rintro (⟨hin, _⟩ | ⟨hin, _⟩)
    · exact hlb ((List.takeWhile_sublist _).mem hin)
    · exact hrb ((List.takeWhile_sublist _).mem hin)

theorem splitTail_ok {scheme url : Str} (hlb : '[' ∉ url) (hrb : ']' ∉ url) :
    ∃ res, splitTail scheme url = .ok res := by
  rw [splitTail]
  split <;> rename_i hsl
  · rw [if_neg ?hno]
    · exact ⟨_, rfl⟩
    case hno =>
      have hsub : ∀ c ∈ (splitnetloc url).1, c ∈ url := by
        intro c hc
        exact (List.drop_sublist 2 url).mem ((List.takeWhile_sublist _).mem hc)
      rintro (⟨hin, _⟩ | ⟨hin, _⟩)
      · exact hlb (hsub _ hin)
      · exact hrb (hsub _ hin)
  · rw [if_neg (by simp)]
    exact ⟨_, rfl⟩

theorem pyUrlsplit_ok {url : Str} (hlb : '[' ∉ url) (hrb : ']' ∉ url) :
    ∃ res, pyUrlsplit url = .ok res := by
  have hdrop : ∀ n, '[' ∉ url.drop n ∧ ']' ∉ url.drop n := fun n =>
    ⟨fun h => hlb ((List.drop_sublist n url).mem h),
     fun h => hrb ((List.drop_sublist n url).mem h)⟩
  rw [pyUrlsplit]
  rcases pyFind ':' url with _ | i
  · exact splitTail_ok hlb hrb
  · dsimp only
    split
    · split
      · exact splitTail_ok (hdrop _).1 (hdrop _).2
      · split
        · split
          · exact splitTail_ok (hdrop _).1 (hdrop _).2
          · exact splitTail_ok hlb hrb
        · exact splitTail_ok hlb hrb
    · exact splitTail_ok hlb hrb

theorem pyUrlparse_of_split {url : Str} {res : SplitResult}
    (h : pyUrlsplit url = .ok res) :
    pyUrlparse url =
      (if res.scheme ∈ usesParams ∧ ';' ∈ res.path then
        .ok ⟨res.scheme, res.netloc, (splitParams res.path).1,
             (splitParams res.path).2, res.query, res.fragment⟩
      else .ok ⟨res.scheme, res.netloc, res.path, [], res.query, res.fragment⟩) := by
  rw [pyUrlparse, h]

theorem pyUrlparse_ok {url : Str} (hlb : '[' ∉ url) (hrb : ']' ∉ url) :
    ∃ res, pyUrlparse url = .ok res := by
  obtain ⟨res, hres⟩ := pyUrlsplit_ok hlb hrb
  rw [pyUrlparse_of_split hres]
  split <;> exact ⟨_, rfl⟩

theorem clean_url_ok {url : Str} (hlb : '[' ∉ url) (hrb : ']' ∉ url) :
    ∃ v, clean_url url [] = .ok v := by
  obtain ⟨res, hres⟩ := pyUrlparse_ok hlb hrb
  rw [clean_url, hres]
  exact ⟨_, rfl⟩

/-! clean_url idempotence on http URLs -/

theorem take1_eq_slash {X : Str} (h : X.take 1 = "/".toList) : headIs '/' X = true := by
  cases X with
  | nil => simp [List.take] at h
  | cons a as =>
    simp only [List.take_succ_cons, List.take_zero] at h
    have : a = '/' := by simpa using congrArg (fun l => l.headI) h
    simp [headIs, this]

theorem take2_to_take1 {X : Str} (h : X.take 2 = "//".toList) : X.take 1 = "/".toList := by
  cases X with
  | nil => simp [List.take] at h
  | cons a as =>
    cases as with
    | nil => simp [List.take] at h
    | cons b bs =>
      simp only [List.take_succ_cons, List.take_zero] at h ⊢
      have : a = '/' := by simpa using congrArg (fun l => l.headI) h
      simp [this]

/-- `pyUrlunsplit` with scheme `http` and empty query/fragment, in the form
`"http:" ++ rest`. -/
theorem unsplit_http (n X : Str) :
    pyUrlunsplit "http".toList n X [] [] =
      "http:".toList ++
        (if n ≠ [] ∨ (X ≠ [] ∧ X.take 2 = "//".toList) then
          '/' :: '/' :: (n ++ (if X ≠ [] ∧ X.take 1 ≠ "/".toList then '/' :: X else X))
        else X) := by
  rw [pyUrlunsplit]
  rw [if_neg (fun h => h rfl), if_neg (fun h => h rfl), if_pos (by decide)]
  have hpre : ∀ w : Str, "http".toList ++ ':' :: w = "http:".toList ++ w :=
    fun w => rfl
  rw [hpre]
  congr 1

/-- The body of `clean_url` on a URL whose `urlsplit` is already canonical
(scheme `http`, no query/fragment/params, dot-free path). -/
theorem clean_url_of_canonical_split {v n P : Str}
    (hsplit : pyUrlsplit v = .ok ⟨"http".toList, n, P, [], []⟩)
    (hsemi : ';' ∉ P) (hP : P ≠ [])
    (hseg : ∀ s ∈ splitOnChar '/' P, ¬ s = ".".toList ∧ ¬ s = "..".toList) :
    clean_url v [] = .ok (pyUrlunsplit "http".toList n P [] []) := by
  have hp : pyUrlparse v = .ok ⟨"http".toList, n, P, [], [], []⟩ := by
    rw [pyUrlparse_of_split hsplit]
    exact if_neg (fun hc => hsemi hc.2)
  rw [clean_url, hp]
  dsimp only
  rw [collapseDots_no_dots [] hseg, List.nil_append, joinChar_splitOnChar]
  rw [if_neg hP]
  simp [pyUrlunparse]

/-- A canonical path/netloc pair is a fixpoint of `clean_url`. -/
theorem clean_url_fixpoint_http (n X : Str)
    (hn : ∀ c ∈ n, netlocChar c = true)
    (hlb : '[' ∉ n) (hrb : ']' ∉ n)
    (hX : X ≠ [])
    (hseg : ∀ s ∈ splitOnChar '/' X, ¬ s = ".".toList ∧ ¬ s = "..".toList)
    (hh : '#' ∉ X) (hq : '?' ∉ X) (hsm : ';' ∉ X) :
    clean_url (pyUrlunsplit "http".toList n X [] []) [] =
      .ok (pyUrlunsplit "http".toList n X [] []) := by
  by_cases hcond : n ≠ [] ∨ (X ≠ [] ∧ X.take 2 = "//".toList)
  · by_cases hsl : X.take 1 = "/".toList
    · -- the path already starts with '/', reattached unchanged
      have hv : pyUrlunsplit "http".toList n X [] [] =
          "http:".toList ++ ('/' :: '/' :: (n ++ X)) := by
        rw [unsplit_http, if_pos hcond, if_neg (by simp [hsl])]
      have hsplit : pyUrlsplit (pyUrlunsplit "http".toList n X [] []) =
          .ok ⟨"http".toList, n, X, [], []⟩ := by
        rw [hv, pyUrlsplit_http]
        exact splitTail_netloc hn (take1_eq_slash hsl) hlb hrb hh hq
      rw [clean_url_of_canonical_split hsplit hsm hX hseg]
    · -- '/' is prepended to the path by urlunsplit
      have hn' : n ≠ [] := by
        rcases hcond with h | ⟨_, h2⟩
        · exact h
        · exact absurd (take2_to_take1 h2) hsl
      have hv : pyUrlunsplit "http".toList n X [] [] =
          "http:".toList ++ ('/' :: '/' :: (n ++ '/' :: X)) := by
        rw [unsplit_http, if_pos hcond, if_pos ⟨hX, hsl⟩]
      have hh' : '#' ∉ '/' :: X := by simp [hh]
      have hq' : '?' ∉ '/' :: X := by simp [hq]
      have hsplit : pyUrlsplit (pyUrlunsplit "http".toList n X [] []) =
          .ok ⟨"http".toList, n, '/' :: X, [], []⟩ := by
        rw [hv, pyUrlsplit_http]
        exact splitTail_netloc hn (by simp [headIs]) hlb hrb hh' hq'
      have hseg' : ∀ s ∈ splitOnChar '/' ('/' :: X),
          ¬ s = ".".toList ∧ ¬ s = "..".toList := by
        rw [splitOnChar_cons_self]
        intro s hs
        rcases List.mem_cons.mp hs with rfl | hs
        · exact ⟨by decide, by decide⟩
        · exact hseg s hs
      rw [clean_url_of_canonical_split hsplit (by simp [hsm]) (by simp) hseg']
      have hroundtrip : pyUrlunsplit "http".toList n ('/' :: X) [] [] =
          pyUrlunsplit "http".toList n X [] [] := by
        have hc1 : n ≠ [] ∨ (('/' :: X) ≠ [] ∧ ('/' :: X).take 2 = "//".toList) :=
          Or.inl hn'
        have hc2 : ¬ (('/' :: X) ≠ [] ∧ ('/' :: X).take 1 ≠ "/".toList) := by
          simp [List.take_succ_cons]
        have hc3 : X ≠ [] ∧ X.take 1 ≠ "/".toList := ⟨hX, hsl⟩
        rw [unsplit_http, unsplit_http, if_pos hc1, if_pos hcond,
          if_neg hc2, if_pos hc3]
      rw [hroundtrip]
  · -- no netloc and no '//'-path: the path is reattached bare
    have hn0 : n = [] := by
      by_contra h
      exact hcond (Or.inl h)
    have hX2 : ¬ X.take 2 = "//".toList := fun h => hcond (Or.inr ⟨hX, h⟩)
    subst hn0
    have hvcond : ¬ (([] : Str) ≠ [] ∨ (X ≠ [] ∧ X.take 2 = "//".toList)) := by
      rintro (h | ⟨_, h⟩)
      · exact h rfl
      · exact hX2 h
    have hv : pyUrlunsplit "http".toList [] X [] [] = "http:".toList ++ X := by
      rw [unsplit_http, if_neg hvcond]
    have hsplit : pyUrlsplit (pyUrlunsplit "http".toList [] X [] []) =
        .ok ⟨"http".toList, [], X, [], []⟩ := by
      rw [hv, pyUrlsplit_http]
      exact splitTail_no_netloc hX2 hh hq
    rw [clean_url_of_canonical_split hsplit hsm hX hseg]

/-- C1 (amended): normalization is idempotent on URLs that begin with
`http://` and contain no `';'`, `'['` or `']'`:
`clean_url(clean_url(u)) = clean_url(u)` there. (It is not idempotent for
every string — see the counterexample `c1_counterexample`, where a relative
path segment of the output is reparsed as a scheme.) -/
theorem clean_url_idem_http (r : Str)
    (hsemi : ';' ∉ r) (hlb : '[' ∉ r) (hrb : ']' ∉ r) :
    ∃ v, clean_url ("http://".toList ++ r) [] = .ok v ∧
      clean_url v [] = .ok v := by
  have hu : ("http://".toList ++ r) = "http:".toList ++ ('/' :: '/' :: r) := rfl
  have hsplit : pyUrlsplit ("http://".toList ++ r) =
      .ok ⟨"http".toList, r.takeWhile netlocChar,
        (splitFirst '?' (splitFirst '#' (r.dropWhile netlocChar)).1).1,
        (splitFirst '?' (splitFirst '#' (r.dropWhile netlocChar)).1).2,
        (splitFirst '#' (r.dropWhile netlocChar)).2⟩ := by
    rw [hu, pyUrlsplit_http]
    exact splitTail_general _ hlb hrb
  -- abbreviations
  set n := r.takeWhile netlocChar with hn_def
  set X0 := (splitFirst '?' (splitFirst '#' (r.dropWhile netlocChar)).1).1 with hX0_def
  have hmemX0 : ∀ c ∈ X0, c ∈ r ∧ c ≠ '#' ∧ c ≠ '?' := by
    intro c hc
    have h1 := mem_splitFirst_fst hc
    have h2 := mem_splitFirst_fst h1.1
    exact ⟨(List.dropWhile_sublist _).mem h2.1, h2.2, h1.2⟩
  have hsemiX0 : ';' ∉ X0 := fun h => hsemi (hmemX0 ';' h).1
  have hparse : pyUrlparse ("http://".toList ++ r) =
      .ok ⟨"http".toList, n, X0, [],
        (splitFirst '?' (splitFirst '#' (r.dropWhile netlocChar)).1).2,
        (splitFirst '#' (r.dropWhile netlocChar)).2⟩ := by
    rw [pyUrlparse_of_split hsplit, if_neg (fun hc => hsemiX0 hc.2)]
  -- the collapsed path
  set parts := collapseDots [] (splitOnChar '/' X0) with hparts_def
  set p := joinChar '/' parts with hp_def
  set X : Str := if p = [] then "/".toList else p with hX_def
  have hclean : clean_url ("http://".toList ++ r) [] =
      .ok (pyUrlunsplit "http".toList n X [] []) := by
    rw [clean_url, hparse]
    dsimp only
    rw [if_neg (by simp)]
    rw [hX_def, hp_def, hparts_def]
    simp [pyUrlunparse]
  -- hypotheses of the fixpoint lemma
  have hnchar : ∀ c ∈ n, netlocChar c = true := fun c hc => List.mem_takeWhile_imp hc
  have hnlb : '[' ∉ n := fun h => hlb ((List.takeWhile_sublist _).mem h)
  have hnrb : ']' ∉ n := fun h => hrb ((List.takeWhile_sublist _).mem h)
  have hXne : X ≠ [] := by
    rw [hX_def]; split
    · decide
    · assumption
  have hmemp : ∀ c ∈ p, c ∈ X0 ∨ c = '/' := by
    intro c hc
    rcases mem_joinChar hc with rfl | ⟨x, hx, hcx⟩
    · exact Or.inr rfl
    · rcases mem_collapseDots hx with h | h
      · simp at h
      · exact Or.inl (mem_of_mem_splitOnChar h hcx)
  have hmemX : ∀ c ∈ X, c ∈ X0 ∨ c = '/' := by
    intro c hc
    rw [hX_def] at hc
    split at hc
    · right; simpa using hc
    · exact hmemp c hc
  have hhX : '#' ∉ X := by
    intro h
    rcases hmemX '#' h with h | h
    · exact (hmemX0 '#' h).2.1 rfl
    · simp at h
  have hqX : '?' ∉ X := by
    intro h
    rcases hmemX '?' h with h | h
    · exact (hmemX0 '?' h).2.2 rfl
    · simp at h
  have hsmX : ';' ∉ X := by
    intro h
    rcases hmemX ';' h with h | h
    · exact hsemiX0 h
    · simp at h
  have hsegX : ∀ s ∈ splitOnChar '/' X, ¬ s = ".".toList ∧ ¬ s = "..".toList := by
    rw [hX_def]
    split <;> rename_i hpnil
    · decide
    · have hne : parts ≠ [] := by
        intro h
        rw [hp_def, h] at hpnil
        exact hpnil rfl
      have hsep : ∀ x ∈ parts, '/' ∉ x := by
        intro x hx
        rcases mem_collapseDots hx with h | h
        · simp at h
        · exact mem_splitOnChar_not_sep h
      rw [hp_def, splitOnChar_joinChar hne hsep]
      exact collapseDots_output_no_dots (by simp)
  exact ⟨pyUrlunsplit "http".toList n X [] [], hclean,
    clean_url_fixpoint_http n X hnchar hnlb hnrb hXne hsegX hhX hqX hsmX⟩

/-! prune_urls -/

theorem mem_prune_urls {S : List Str} {startUrl : Str} {allow ignore : List Str}
    {u : Str} :
    u ∈ prune_urls S startUrl allow ignore ↔
      u ∈ S ∧ (∃ a ∈ allow, pyStartswith u a = true)
        ∧ (∀ i ∈ ignore, pyStartswith u i = false)
        ∧ lowerStr (rsplitSuffix '.' u) ∉ IGNORE_SUFFIXES := by
  rw [prune_urls, List.mem_filter]
  simp only [Bool.and_eq_true, List.any_eq_true, Bool.not_eq_true',
    List.any_eq_false, decide_eq_false_iff_not, Bool.not_eq_true]
  tauto

/-! extract_urls -/

theorem extract_urls_nil {url : Str} {res : List Str}
    (h : extract_urls url [] = .ok res) : res = [] := by
  rw [extract_urls] at h
  rcases hp : pyUrlparse url with e | parts
  · rw [hp] at h; cases h
  · rw [hp] at h
    simp only [List.length_nil, subAll, finditerAbs, cleanFound] at h
    cases h
    rfl

/-! the crawl controller -/

theorem processOutput_spec {cfg : CrawlConfig} {seen1 : List Str} :
    ∀ {urls good pend good2 pend2},
      processOutput cfg seen1 urls good pend = .ok (good2, pend2) →
      (∀ u ∈ good2, u ∈ good ∨ u ∈ urls) ∧
      (∀ u ∈ pend2, u ∈ pend ∨
        (u ∉ seen1 ∧ pyStartswith u cfg.startUrl = true)) := by
  intro urls
  induction urls with
  | nil =>
    intro good pend good2 pend2 h
    rw [processOutput] at h
    cases h
    exact ⟨fun u hu => Or.inl hu, fun u hu => Or.inl hu⟩
  | cons v rest ih =>
    intro good pend good2 pend2 h
    rw [processOutput] at h
    split at h
    · obtain ⟨hg, hp⟩ := ih h
      refine ⟨fun u hu => ?_, hp⟩
      rcases hg u hu with h' | h'
      · exact Or.inl h'
      · exact Or.inr (List.mem_cons.mpr (Or.inr h'))
    · split at h
      · obtain ⟨hg, hp⟩ := ih h
        refine ⟨fun u hu => ?_, hp⟩
        rcases hg u hu with h' | h'
        · exact Or.inl h'
        · exact Or.inr (List.mem_cons.mpr (Or.inr h'))
      · split at h
        · cases h
        · rename_i found hfound
          obtain ⟨hg, hp⟩ := ih h
          constructor
          · intro u hu
            rcases hg u hu with h' | h'
            · rcases mem_setInsert.mp h' with h'' | rfl
              · exact Or.inl h''
              · exact Or.inr (List.mem_cons_self _ _)
            · exact Or.inr (List.mem_cons.mpr (Or.inr h'))
          · intro u hu
            rcases hp u hu with h' | h'
            · rcases mem_setUnion.mp h' with h'' | h''
              · exact Or.inl h''
              · obtain ⟨hmem, hnot⟩ := mem_setDiff.mp h''
                obtain ⟨_, ⟨a, ha, hstart⟩, _, _⟩ := mem_prune_urls.mp hmem
                rcases List.mem_singleton.mp ha with rfl
                exact Or.inr ⟨hnot, hstart⟩
            · exact Or.inr h'

/-- Under the hypothesis that no extracted URL starts with the raw
`start_url`, processing adds nothing to the frontier. -/
theorem processOutput_pend_none {cfg : CrawlConfig} {seen1 : List Str}
    (H : ∀ u res, extract_urls u (cfg.oracle u).data = .ok res →
      ∀ v ∈ res, pyStartswith v cfg.startUrl = false) :
    ∀ {urls good pend good2 pend2},
      processOutput cfg seen1 urls good pend = .ok (good2, pend2) →
      ∀ u ∈ pend2, u ∈ pend := by
  intro urls
  induction urls with
  | nil =>
    intro good pend good2 pend2 h
    rw [processOutput] at h
    cases h
    exact fun u hu => hu
  | cons v rest ih =>
    intro good pend good2 pend2 h
    rw [processOutput] at h
    split at h
    · exact ih h
    · split at h
      · exact ih h
      · split at h
        · cases h
        · rename_i found hfound
          intro u hu
          rcases mem_setUnion.mp (ih h u hu) with h' | h'
          · exact h'
          · obtain ⟨hmem, _⟩ := mem_setDiff.mp h'
            obtain ⟨hin, ⟨a, ha, hstart⟩, _, _⟩ := mem_prune_urls.mp hmem
            rcases List.mem_singleton.mp ha with rfl
            exact absurd hstart (by simp [H v found hfound u hin])

theorem levelStep_ok {cfg : CrawlConfig} {st st2 : CrawlState}
    (h : levelStep cfg st = .ok st2) :
    ∃ gp, processOutput cfg (setUnion st.seen st.pending) st.pending st.good []
        = .ok gp ∧
      st2 = ⟨gp.2, setUnion st.seen st.pending, gp.1, st.depth + 1,
             st.trace ++ [st.pending]⟩ := by
  rw [levelStep] at h
  rcases hp : processOutput cfg (setUnion st.seen st.pending) st.pending st.good []
    with e | gp
  · rw [hp] at h; cases h
  · rw [hp] at h
    cases h
    exact ⟨gp, rfl, rfl⟩

/-- Visited never shrinks, the dispatched frontier is in Visited, and the
rebuilt frontier is disjoint from Visited. -/
theorem levelStep_invariants {cfg : CrawlConfig} {st st2 : CrawlState}
    (h : levelStep cfg st = .ok st2) :
    (∀ u ∈ st.seen, u ∈ st2.seen) ∧ (∀ u ∈ st.pending, u ∈ st2.seen) ∧
    (∀ u ∈ st2.pending, u ∉ st2.seen) := by
  obtain ⟨gp, hgp, rfl⟩ := levelStep_ok h
  refine ⟨fun u hu => mem_setUnion.mpr (Or.inl hu),
    fun u hu => mem_setUnion.mpr (Or.inr hu), fun u hu => ?_⟩
  rcases (processOutput_spec hgp).2 u hu with h' | h'
  · simp at h'
  · exact h'.1

/-- Every URL the rebuilt frontier holds starts with the raw seed string. -/
theorem levelStep_frontier_prefixed {cfg : CrawlConfig} {st st2 : CrawlState}
    (h : levelStep cfg st = .ok st2) :
    ∀ u ∈ st2.pending, pyStartswith u cfg.startUrl = true := by
  obtain ⟨gp, hgp, rfl⟩ := levelStep_ok h
  intro u hu
  rcases (processOutput_spec hgp).2 u hu with h' | h'
  · simp at h'
  · exact h'.2

theorem crawlLoop_trace_inv {cfg : CrawlConfig} {s0 : Str}
    (H : ∀ u res, extract_urls u (cfg.oracle u).data = .ok res →
      ∀ v ∈ res, pyStartswith v cfg.startUrl = false) :
    ∀ (fuel : Nat) (st st' : CrawlState),
      (∀ u ∈ st.pending, u = s0) → (∀ b ∈ st.trace, ∀ u ∈ b, u = s0) →
      crawlLoop cfg fuel st = .ok st' →
      ∀ b ∈ st'.trace, ∀ u ∈ b, u = s0 := by
  intro fuel
  induction fuel with
  | zero =>
    intro st st' _ htr h
    rw [crawlLoop] at h
    cases h
    exact htr
  | succ f ih =>
    intro st st' hpend htr h
    rw [crawlLoop] at h
    split at h
    · rcases hls : levelStep cfg st with e | st2
      · rw [hls] at h; cases h
      · rw [hls] at h
        obtain ⟨gp, hgp, hst2⟩ := levelStep_ok hls
        refine ih st2 st' ?_ ?_ h
        · intro u hu
          rw [hst2] at hu
          exact absurd (processOutput_pend_none H hgp u hu) (by simp)
        · intro b hb
          rw [hst2] at hb
          rcases List.mem_append.mp hb with hb | hb
          · exact htr b hb
          · rcases List.mem_singleton.mp hb with rfl
            exact hpend
    · cases h
      exact htr

/-! the publishing phase -/

theorem buildRunRequests_spec {b : Option Str} {rn : Str} {rnum : Nat} :
    ∀ {good reqs}, buildRunRequests b rn rnum good = .ok reqs →
      reqs.map RunRequest.url = good ∧
      ∀ req ∈ reqs, req.buildId = b ∧ req.releaseName = rn ∧
        req.releaseNumber = rnum ∧ req.configData = configJson ∧
        ∃ parts, pyUrlparse req.url = .ok parts ∧ req.runName = parts.path := by
  intro good
  induction good with
  | nil =>
    intro reqs h
    rw [buildRunRequests] at h
    cases h
    exact ⟨rfl, by simp⟩
  | cons url rest ih =>
    intro reqs h
    rw [buildRunRequests] at h
    rcases hp : pyUrlparse url with e | parts
    · rw [hp] at h; cases h
    · rw [hp] at h
      rcases hr : buildRunRequests b rn rnum rest with e | rs
      · rw [hr] at h; cases h
      · rw [hr] at h
        cases h
        obtain ⟨hmap, hall⟩ := ih hr
        refine ⟨by simp [hmap], fun req hreq => ?_⟩
        rcases List.mem_cons.mp hreq with rfl | hreq
        · exact ⟨rfl, rfl, rfl, rfl, parts, hp, rfl⟩
        · exact hall req hreq

/-! # The claims -/

/-- C1 witness: idempotence at the concrete URL `http://h/a/../b`. -/
theorem c1_witness :
    ∃ v, clean_url ("http://".toList ++ "h/a/../b".toList) [] = .ok v ∧
      clean_url v [] = .ok v :=
  clean_url_idem_http "h/a/../b".toList (by decide) (by decide) (by decide)

/-- C1 counterexample: `clean_url` is not idempotent on every string.
On `./a:..` one application gives `a:..`; applying it again gives `a:/`
(the collapsed first segment `a:..` is reparsed as scheme `a`, path `..`). -/
theorem c1_counterexample :
    clean_url "./a:..".toList [] = .ok "a:..".toList ∧
    clean_url "a:..".toList [] = .ok "a:/".toList ∧
    ¬ ("a:..".toList : Str) = "a:/".toList := by
  refine ⟨by decide, by decide, by decide⟩

/-- C2 (amended): across one level of the crawl loop the Visited set
(`seen_urls`) is monotonically non-decreasing and the dispatched Frontier
is a subset of Visited (it was added by `seen_urls.update(pending_urls)`);
but the rebuilt Frontier is *disjoint* from Visited — `new` is
`pruned - seen_urls`, and it joins Visited only at the start of the next
level. -/
theorem c2_visited_monotone_frontier_disjoint (cfg : CrawlConfig)
    (st st2 : CrawlState) (h : levelStep cfg st = .ok st2) :
    (∀ u ∈ st.seen, u ∈ st2.seen) ∧ (∀ u ∈ st.pending, u ∈ st2.seen) ∧
    (∀ u ∈ st2.pending, u ∉ st2.seen) :=
  levelStep_invariants h

/-- C2 witness: the invariants at the concrete configuration `cfgLinkA`. -/
theorem c2_witness :
    (∀ u ∈ (initState "http://h/".toList).seen, u ∈ stLinkA.seen) ∧
    (∀ u ∈ (initState "http://h/".toList).pending, u ∈ stLinkA.seen) ∧
    (∀ u ∈ stLinkA.pending, u ∉ stLinkA.seen) :=
  c2_visited_monotone_frontier_disjoint cfgLinkA (initState "http://h/".toList)
    stLinkA (by decide)

/-- C2 counterexample: immediately after the Controller adds the newly
discovered URL `http://h/a` to the next Frontier, that URL is NOT in
Visited: the claim `Frontier ⊆ Visited at every point` fails right after
the frontier rebuild. -/
theorem c2_counterexample :
    levelStep cfgLinkA (initState "http://h/".toList) = .ok stLinkA ∧
    "http://h/a".toList ∈ stLinkA.pending ∧
    "http://h/a".toList ∉ stLinkA.seen := by
  refine ⟨by decide, by decide, by decide⟩

/-- C3 (amended): query and fragment are discarded, but the result is
`http://h/a` — `clean_url` adds a trailing slash only when the collapsed
path is empty, so the path stays `/a`. -/
theorem c3_query_fragment_stripped :
    clean_url "http://h/a?x=1#y".toList [] = .ok "http://h/a".toList := by
  decide

/-- C3 counterexample: the spec's stated value `http://h/a/` is not what
`clean_url` returns. -/
theorem c3_counterexample :
    ¬ clean_url "http://h/a?x=1#y".toList [] = .ok "http://h/a/".toList := by
  decide

/-- C4 (amended): each `..` pops the preceding retained segment and each
`.` is dropped, giving `http://h/a/c` (no trailing slash is appended to a
non-empty path) and `http://h/a/b/` (the trailing empty segment of the
input is kept). -/
theorem c4_dot_segment_collapse :
    clean_url "http://h/a/b/../c".toList [] = .ok "http://h/a/c".toList ∧
    clean_url "http://h/a/./b/".toList [] = .ok "http://h/a/b/".toList := by
  refine ⟨by decide, by decide⟩

/-- C4 counterexample: the spec's stated value `http://h/a/c/` is not what
`clean_url` returns for `http://h/a/b/../c`. -/
theorem c4_counterexample :
    ¬ clean_url "http://h/a/b/../c".toList [] = .ok "http://h/a/c/".toList := by
  decide

/-- C5 (amended): for source URL `http://h/dir/page` and the document
` src="img.png"` (the attribute preceded by the whitespace the rewrite
pattern `TAG_START` requires), the same-directory rewrite prefixes the
source directory and the extracted set is exactly
`{http://h/dir/img.png}`. -/
theorem c5_same_dir_extraction :
    extract_urls "http://h/dir/page".toList " src=\"img.png\"".toList =
      .ok ["http://h/dir/img.png".toList] := by
  decide

/-- C5 counterexample: a document that contains the attribute occurrence
`src="img.png"` (as its whole text, so with no whitespace before `src`)
yields an empty extracted set: the claim's universal quantification over
documents containing the occurrence fails. -/
theorem c5_counterexample :
    strContains "src=\"img.png\"".toList "src=\"img.png\"".toList = true ∧
    extract_urls "http://h/dir/page".toList "src=\"img.png\"".toList = .ok []
      ∧ ¬ ∃ res, extract_urls "http://h/dir/page".toList
          "src=\"img.png\"".toList = .ok res ∧
          "http://h/dir/img.png".toList ∈ res := by
  refine ⟨by decide, by decide, ?_⟩
  rintro ⟨res, hres, hmem⟩
  have : res = ([] : List Str) := by
    have h0 : extract_urls "http://h/dir/page".toList
        "src=\"img.png\"".toList = .ok [] := by decide
    rw [h0] at hres
    cases hres
    rfl
  subst this
  simp at hmem

/-- C6: `prune_urls` returns exactly the candidates that start with an
allow-list prefix, start with no ignore-list prefix, and whose text after
the last `.` (lower-cased) is not in `IGNORE_SUFFIXES`; the result is a
subset of the input, and a candidate with no `.` is never dropped by the
suffix rule. -/
theorem c6_prune_urls_spec (S : List Str) (startUrl : Str)
    (allow ignore : List Str) (u : Str) :
    (u ∈ prune_urls S startUrl allow ignore ↔
      u ∈ S ∧ (∃ a ∈ allow, pyStartswith u a = true)
        ∧ (∀ i ∈ ignore, pyStartswith u i = false)
        ∧ lowerStr (rsplitSuffix '.' u) ∉ IGNORE_SUFFIXES)
    ∧ (∀ v ∈ prune_urls S startUrl allow ignore, v ∈ S)
    ∧ ('.' ∉ u → lowerStr (rsplitSuffix '.' u) ∉ IGNORE_SUFFIXES) := by
  refine ⟨mem_prune_urls, fun v hv => (mem_prune_urls.mp hv).1, fun hdot => ?_⟩
  rw [rsplitSuffix, if_neg hdot]
  decide

/-- C7: with `crawl_depth = 0` the Controller dispatches exactly one fetch
batch, holding only the normalized seed, and every Accepted URL is the
normalized seed. -/
theorem c7_depth_zero (cfg : CrawlConfig) (fuel : Nat) (s0 : Str)
    (st : CrawlState)
    (hd : cfg.crawlDepth = 0)
    (hclean : clean_url cfg.startUrl [] = .ok s0)
    (hfuel : 1 ≤ fuel)
    (hrun : siteDiffCrawl cfg fuel = .ok st) :
    st.trace = [[s0]] ∧ ∀ u ∈ st.good, u = s0 := by
  obtain ⟨f, rfl⟩ : ∃ f, fuel = f + 1 :=
    ⟨fuel - 1, (Nat.succ_pred_eq_of_pos hfuel).symm⟩
  rw [siteDiffCrawl, hclean] at hrun
  dsimp only at hrun
  rw [crawlLoop] at hrun
  rw [if_pos ?hcond] at hrun
  case hcond =>
    refine ⟨Or.inr ?_, by simp [initState]⟩
    rw [hd]
    simp [initState]
  rcases hls : levelStep cfg (initState s0) with e | st1
  · rw [hls] at hrun; cases hrun
  · rw [hls] at hrun
    dsimp only at hrun
    obtain ⟨gp, hgp, hst1⟩ := levelStep_ok hls
    have hstop : crawlLoop cfg f st1 = .ok st1 := by
      cases f with
      | zero => rfl
      | succ f2 =>
        rw [crawlLoop, if_neg ?hng]
        case hng =>
          rintro ⟨h1 | h1, _⟩
          · rw [hd] at h1; exact absurd h1 (by decide)
          · rw [hst1, hd] at h1
            simp [initState] at h1
    rw [hstop] at hrun
    cases hrun
    constructor
    · rw [hst1]; simp [initState]
    · intro u hu
      rw [hst1] at hu
      rcases (processOutput_spec hgp).1 u hu with h' | h'
      · simp [initState] at h'
      · simpa [initState] using h'

/-- C7 witness: the depth-0 crawl of `cfgDepth0` fetches only the seed. -/
theorem c7_witness :
    stLinkA.trace = [["http://h/".toList]] ∧
    ∀ u ∈ stLinkA.good, u = "http://h/".toList :=
  c7_depth_zero cfgDepth0 5 "http://h/".toList stLinkA rfl (by decide)
    (by decide) (by decide)

/-- C8 (amended): `clean_url` succeeds on every input without `'['`/`']'`
(it raises `ValueError("Invalid IPv6 URL")` exactly when `urlsplit`'s
bracket check fires — see `c8_counterexample`); in particular
`clean_url("http://h/../x") = "http://h/x"`, whose path has no `..`
segment: the `..` with nothing left to pop is silently dropped. -/
theorem c8_total_without_brackets (u : Str)
    (hlb : '[' ∉ u) (hrb : ']' ∉ u) :
    (∃ v, clean_url u [] = .ok v) ∧
    clean_url "http://h/../x".toList [] = .ok "http://h/x".toList ∧
    strContains "http://h/x".toList "..".toList = false := by
  refine ⟨clean_url_ok hlb hrb, by decide, by decide⟩

/-- C8 witness: totality at the concrete input `http://h/../x`. -/
theorem c8_witness :
    (∃ v, clean_url "http://h/../x".toList [] = .ok v) ∧
    clean_url "http://h/../x".toList [] = .ok "http://h/x".toList ∧
    strContains "http://h/x".toList "..".toList = false :=
  c8_total_without_brackets "http://h/../x".toList (by decide) (by decide)

/-- C8 counterexample: `clean_url` is not total — on `http://[` the
embedded `urlsplit` raises (Python 2.7's `ValueError("Invalid IPv6 URL")`). -/
theorem c8_counterexample : clean_url "http://[".toList [] = .error () := by
  decide

/-- C9: the publishing phase issues exactly one run-registration request
per Accepted URL (the requests' URLs enumerate `good_urls`), each with run
name equal to the URL's parsed path component and the fixed 1024×768
viewport-size config payload; the whole registration batch precedes the
release finalization action. -/
theorem c9_publish_requests (good : List Str) (b : Option Str) (rn : Str)
    (rnum : Nat) (startUrl : Str) (acts : List PubAction)
    (h : publishPhase good b rn rnum startUrl = .ok acts) :
    ∃ reqs, acts = [.createRelease b rn startUrl, .runBatch reqs,
        .runsDone b rn rnum] ∧
      reqs.map RunRequest.url = good ∧
      ∀ req ∈ reqs, req.configData = configJson ∧
        ∃ parts, pyUrlparse req.url = .ok parts ∧ req.runName = parts.path := by
  rw [publishPhase] at h
  rcases hb : buildRunRequests b rn rnum good with e | reqs
  · rw [hb] at h; cases h
  · rw [hb] at h
    cases h
    obtain ⟨hmap, hall⟩ := buildRunRequests_spec hb
    exact ⟨reqs, rfl, hmap, fun req hreq =>
      ⟨(hall req hreq).2.2.2.1, (hall req hreq).2.2.2.2⟩⟩

/-- C9 witness: the publishing phase at the single accepted URL
`http://h/a`. -/
theorem c9_witness :
    ∃ reqs, ([PubAction.createRelease none "r".toList "http://h".toList,
        .runBatch [⟨none, "r".toList, 7, "/a".toList, "http://h/a".toList,
          configJson⟩],
        .runsDone none "r".toList 7] : List PubAction) =
        [.createRelease none "r".toList "http://h".toList, .runBatch reqs,
         .runsDone none "r".toList 7] ∧
      reqs.map RunRequest.url = ["http://h/a".toList] ∧
      ∀ req ∈ reqs, req.configData = configJson ∧
        ∃ parts, pyUrlparse req.url = .ok parts ∧ req.runName = parts.path :=
  c9_publish_requests ["http://h/a".toList] none "r".toList 7
    "http://h".toList _ (by decide)

/-- C10: the allow-list the Controller passes to `prune_urls` is the single
raw `start_url` string, while the frontier is seeded with
`clean_url(start_url)`: every URL a level step puts into the frontier
starts with the raw seed as an exact string prefix, and when
`clean_url(start_url) ≠ start_url` and no extracted URL starts with the
raw seed, every dispatched batch holds only the normalized seed. -/
theorem c10_raw_seed_allow_list (cfg : CrawlConfig) (s0 : Str) (fuel : Nat)
    (st : CrawlState)
    (hclean : clean_url cfg.startUrl [] = .ok s0)
    (hne : s0 ≠ cfg.startUrl)
    (H : ∀ u res, extract_urls u (cfg.oracle u).data = .ok res →
      ∀ v ∈ res, pyStartswith v cfg.startUrl = false)
    (hrun : siteDiffCrawl cfg fuel = .ok st) :
    (∀ st1 st2, levelStep cfg st1 = .ok st2 →
      ∀ u ∈ st2.pending, pyStartswith u cfg.startUrl = true) ∧
    (∀ b ∈ st.trace, ∀ u ∈ b, u = s0) := by
  constructor
  · exact fun st1 st2 h => levelStep_frontier_prefixed h
  · rw [siteDiffCrawl, hclean] at hrun
    exact crawlLoop_trace_inv H fuel (initState s0) st (by simp [initState])
      (by simp [initState]) hrun

/-- C10 witness: the crawl of `cfgEmpty` (raw seed `http://h`, normalized
seed `http://h/`, no extracted URLs at all) fetches only the seed. -/
theorem c10_witness :
    (∀ st1 st2, levelStep cfgEmpty st1 = .ok st2 →
      ∀ u ∈ st2.pending, pyStartswith u cfgEmpty.startUrl = true) ∧
    (∀ b ∈ stEmptyRun.trace, ∀ u ∈ b, u = "http://h/".toList) :=
  c10_raw_seed_allow_list cfgEmpty "http://h/".toList 3 stEmptyRun
    (by decide) (by decide)
    (fun u res hres v hv => by
      have h0 : res = [] := extract_urls_nil hres
      subst h0
      simp at hv)
    (by decide)
